import Mathlib

/-!
Verification of the jet-image codec implemented in
`CNNTopTaggingPreprocessing.ipynb`: coordinate transform (`get_df_rel`),
rasterizer (`get_img_array` / `np.histogram2d`), logarithmic 8-bit
quantizer (`transform`) and dequantizer (`reverse_transform`), and the
chunked batch driver (`preprocess`).

Machine floating point is modelled by exact reals; the NaN/±infinity
propagation of the coordinate transform (which `fillna` interacts with)
is modelled explicitly by the type `F` below.  The `astype(np.uint8)`
cast is modelled as truncation toward zero followed by reduction mod 256,
which is what the numpy cast does on the value ranges arising here.
-/

namespace JetCodec

/-! ### Quantizer / dequantizer

Source (notebook cell):
```
def transform(x, range=(-10, 5)):
    map_1_255 = ((np.log(x) - range[0]) / (range[1] - range[0]) * 255 + 1)
    return np.where(x != 0, map_1_255, 0).astype(np.uint8)

def reverse_transform(x_uint8, range=(-10, 5)):
    reverse_map_1_255 =  np.exp((x_uint8 - 1) / 255 * (range[1] - range[0]) + range[0])
    return np.where(x_uint8 != 0, reverse_map_1_255, 0)
```
Both are always called with the default range `(-10, 5)`.
-/

/-- Lower end of the logarithmic range, `range[0]` in the notebook. -/
def qlo : ℝ := -10

/-- Upper end of the logarithmic range, `range[1]` in the notebook. -/
def qhi : ℝ := 5

/-- Model of numpy `.astype(np.uint8)` applied to a float value:
C-style truncation toward zero, then reduction modulo 256. -/
noncomputable def uint8cast (r : ℝ) : ℕ :=
  ((if 0 ≤ r then (⌊r⌋ : ℤ) else ⌈r⌉) % 256).toNat

/-- Function `transform` from the notebook, per array element. -/
noncomputable def transform (x : ℝ) : ℕ :=
  uint8cast (if x ≠ 0 then (Real.log x - qlo) / (qhi - qlo) * 255 + 1 else 0)

/-- Function `reverse_transform` from the notebook, per array element.  (For the
element selected by `np.where (x_uint8 != 0)` the uint8 subtraction
`x_uint8 - 1` never wraps since `x_uint8 ≥ 1` there; the wrapped value at
`x_uint8 = 0` is discarded by the `where`, so the model takes the branch
first.) -/
noncomputable def reverse_transform (q : ℕ) : ℝ :=
  if q ≠ 0 then Real.exp (((q : ℝ) - 1) / 255 * (qhi - qlo) + qlo) else 0

/-- The pre-cast value computed by `transform` on a nonzero element. -/
noncomputable def premap (x : ℝ) : ℝ :=
  (Real.log x - qlo) / (qhi - qlo) * 255 + 1

lemma premap_eq (x : ℝ) : premap x = 17 * Real.log x + 171 := by
  unfold premap qlo qhi
  ring

lemma transform_of_ne_zero {x : ℝ} (hx : x ≠ 0) :
    transform x = uint8cast (17 * Real.log x + 171) := by
  rw [transform, if_pos hx, ← premap, premap_eq]

lemma transform_zero : transform 0 = 0 := by
  simp [transform, uint8cast]

lemma reverse_transform_zero : reverse_transform 0 = 0 := by
  simp [reverse_transform]

lemma uint8cast_of_bounds {r : ℝ} (h0 : 0 ≤ r) (h1 : r < 256) :
    uint8cast r = (⌊r⌋).toNat := by
  rw [uint8cast, if_pos h0, Int.emod_eq_of_lt (Int.le_floor.mpr (by exact_mod_cast h0))
    (by exact_mod_cast Int.floor_lt.mpr (by exact_mod_cast h1))]

lemma uint8cast_lt (r : ℝ) : uint8cast r < 256 := by
  rw [uint8cast]
  have h := Int.emod_lt_of_pos (if 0 ≤ r then (⌊r⌋ : ℤ) else ⌈r⌉) (by norm_num : (0:ℤ) < 256)
  omega

lemma log_mem_of_range {x : ℝ} (hlo : Real.exp qlo ≤ x) (hhi : x < Real.exp qhi) :
    qlo ≤ Real.log x ∧ Real.log x < qhi := by
  have hx : 0 < x := lt_of_lt_of_le (Real.exp_pos qlo) hlo
  constructor
  · have := Real.log_le_log (Real.exp_pos qlo) hlo
    rwa [Real.log_exp] at this
  · have := Real.log_lt_log hx hhi
    rwa [Real.log_exp] at this

/-- On the representable range the cast does not truncate mod 256: the
code is just the floor of the pre-cast value, and lies in `[1, 255]`. -/
lemma transform_in_range {x : ℝ} (hlo : Real.exp qlo ≤ x) (hhi : x < Real.exp qhi) :
    transform x = (⌊17 * Real.log x + 171⌋).toNat ∧
      1 ≤ transform x ∧ transform x ≤ 255 := by
  have hx : 0 < x := lt_of_lt_of_le (Real.exp_pos qlo) hlo
  obtain ⟨h1, h2⟩ := log_mem_of_range hlo hhi
  have hq1 : (1:ℝ) ≤ 17 * Real.log x + 171 := by unfold qlo at h1; linarith
  have hq2 : 17 * Real.log x + 171 < 256 := by unfold qhi at h2; linarith
  have heq : transform x = (⌊17 * Real.log x + 171⌋).toNat := by
    rw [transform_of_ne_zero (ne_of_gt hx)]
    exact uint8cast_of_bounds (by linarith) hq2
  refine ⟨heq, ?_, ?_⟩
  · rw [heq]
    have : (1:ℤ) ≤ ⌊17 * Real.log x + 171⌋ := Int.le_floor.mpr (by exact_mod_cast hq1)
    omega
  · rw [heq]
    have : ⌊17 * Real.log x + 171⌋ < 256 := Int.floor_lt.mpr (by exact_mod_cast hq2)
    omega

lemma transform_exp_five : transform (Real.exp 5) = 0 := by
  rw [transform_of_ne_zero (ne_of_gt (Real.exp_pos 5)), Real.log_exp]
  have h : (17:ℝ) * 5 + 171 = 256 := by norm_num
  rw [h, uint8cast, if_pos (by norm_num : (0:ℝ) ≤ 256)]
  norm_num

lemma transform_exp_four : transform (Real.exp 4) = 239 := by
  rw [transform_of_ne_zero (ne_of_gt (Real.exp_pos 4)), Real.log_exp]
  have h : (17:ℝ) * 4 + 171 = 239 := by norm_num
  rw [h, uint8cast, if_pos (by norm_num : (0:ℝ) ≤ 239)]
  norm_num
  rfl

lemma transform_one : transform 1 = 171 := by
  rw [transform_of_ne_zero one_ne_zero, Real.log_one]
  have h : (17:ℝ) * 0 + 171 = 171 := by norm_num
  rw [h, uint8cast, if_pos (by norm_num : (0:ℝ) ≤ 171)]
  norm_num
  rfl

lemma reverse_transform_of_ne_zero {q : ℕ} (hq : q ≠ 0) :
    reverse_transform q = Real.exp (((q : ℝ) - 1) / 255 * 15 - 10) := by
  rw [reverse_transform, if_pos hq]
  norm_num [qlo, qhi]
  ring_nf

lemma uint8cast_natCast {q : ℕ} (hq : q ≤ 255) : uint8cast (q : ℝ) = q := by
  rw [uint8cast_of_bounds (by positivity) (by exact_mod_cast Nat.lt_of_le_of_lt hq (by norm_num)),
    Int.floor_natCast, Int.toNat_natCast]

lemma transform_cast_eq {x : ℝ} (hlo : Real.exp qlo ≤ x) (hhi : x < Real.exp qhi) :
    ((transform x : ℝ)) = (⌊17 * Real.log x + 171⌋ : ℤ) := by
  obtain ⟨heq, h1, -⟩ := transform_in_range hlo hhi
  rw [heq]
  rw [heq] at h1
  exact_mod_cast Int.toNat_of_nonneg (by omega)

/-! ### Theorems for the quantizer claims -/

/-- C1 (counterexample): at `x = exp 5`, which the claim's range
`[exp lo, exp hi]` includes, the pre-cast value is exactly 256, the uint8
cast wraps it to code 0, and the round trip returns 0 — not within the
claimed multiplicative envelope `exp((hi-lo)/255)` of `x`. -/
theorem C1_counterexample :
    Real.exp qlo ≤ Real.exp 5 ∧ Real.exp 5 ≤ Real.exp qhi ∧
      reverse_transform (transform (Real.exp 5)) = 0 ∧
      ¬ Real.exp 5 * Real.exp (-((qhi - qlo) / 255)) ≤
          reverse_transform (transform (Real.exp 5)) := by
  refine ⟨Real.exp_le_exp.mpr (by norm_num [qlo]), le_of_eq (by norm_num [qhi]), ?_, ?_⟩
  · rw [transform_exp_five, reverse_transform_zero]
  · rw [transform_exp_five, reverse_transform_zero]
    push_neg
    positivity

/-- C1 (amended): for `exp lo ≤ x < exp hi` (the upper endpoint excluded,
since the cast wraps there), the round trip `reverse_transform ∘ transform`
underestimates `x` by at most one logarithmic bin: it lies in
`(x * exp(-(hi-lo)/255), x]`, hence within the claimed `exp((hi-lo)/255)`
multiplicative envelope. -/
theorem C1_quantize_roundtrip (x : ℝ) (hlo : Real.exp qlo ≤ x) (hhi : x < Real.exp qhi) :
    reverse_transform (transform x) ≤ x ∧
      x * Real.exp (-((qhi - qlo) / 255)) < reverse_transform (transform x) := by
  have hx : 0 < x := lt_of_lt_of_le (Real.exp_pos qlo) hlo
  obtain ⟨heq, h1, -⟩ := transform_in_range hlo hhi
  have hcast := transform_cast_eq hlo hhi
  have hfloor_le : ((⌊17 * Real.log x + 171⌋ : ℤ) : ℝ) ≤ 17 * Real.log x + 171 :=
    Int.floor_le _
  have hlt_floor : 17 * Real.log x + 171 - 1 < ((⌊17 * Real.log x + 171⌋ : ℤ) : ℝ) :=
    Int.sub_one_lt_floor _
  rw [reverse_transform_of_ne_zero (by omega), hcast]
  have hexp : Real.exp (Real.log x) = x := Real.exp_log hx
  constructor
  · calc Real.exp ((((⌊17 * Real.log x + 171⌋ : ℤ) : ℝ) - 1) / 255 * 15 - 10)
        ≤ Real.exp (Real.log x) := Real.exp_le_exp.mpr (by linarith)
    _ = x := hexp
  · have h15 : -((qhi - qlo) / 255) = -(15 / 255 : ℝ) := by norm_num [qlo, qhi]
    have key : Real.exp (Real.log x + -(15 / 255 : ℝ)) = x * Real.exp (-(15 / 255 : ℝ)) := by
      rw [Real.exp_add, hexp]
    rw [h15, ← key]
    exact Real.exp_lt_exp.mpr (by linarith)

/-- C1 (witness): instantiated at `x = 1`. -/
theorem C1_quantize_roundtrip_witness :
    reverse_transform (transform 1) ≤ 1 ∧
      1 * Real.exp (-((qhi - qlo) / 255)) < reverse_transform (transform 1) :=
  C1_quantize_roundtrip 1
    (by rw [show (1:ℝ) = Real.exp 0 from (Real.exp_zero).symm]
        exact Real.exp_le_exp.mpr (by norm_num [qlo]))
    (by rw [show (1:ℝ) = Real.exp 0 from (Real.exp_zero).symm]
        exact Real.exp_lt_exp.mpr (by norm_num [qhi]))

/-- C4 (counterexample): `transform` is not monotonic on all of `x > 0`:
at `x₂ = exp 5` the pre-cast value 256 wraps to code 0, below the code 239
of `x₁ = exp 4 < x₂`. -/
theorem C4_counterexample :
    0 < Real.exp 4 ∧ Real.exp 4 ≤ Real.exp 5 ∧
      transform (Real.exp 5) < transform (Real.exp 4) := by
  refine ⟨Real.exp_pos 4, Real.exp_le_exp.mpr (by norm_num), ?_⟩
  rw [transform_exp_four, transform_exp_five]
  norm_num

/-- C4 (amended): `transform` is monotonic on the representable range
`exp lo ≤ x < exp hi`; outside it the uint8 wraparound breaks
monotonicity. -/
theorem C4_transform_monotone (x1 x2 : ℝ) (hlo : Real.exp qlo ≤ x1) (h12 : x1 ≤ x2)
    (hhi : x2 < Real.exp qhi) : transform x1 ≤ transform x2 := by
  have hx1 : 0 < x1 := lt_of_lt_of_le (Real.exp_pos qlo) hlo
  obtain ⟨heq1, -, -⟩ := transform_in_range hlo (lt_of_le_of_lt h12 hhi)
  obtain ⟨heq2, -, -⟩ := transform_in_range (le_trans hlo h12) hhi
  rw [heq1, heq2]
  have hlog : Real.log x1 ≤ Real.log x2 := Real.log_le_log hx1 h12
  exact Int.toNat_le_toNat (Int.floor_le_floor (by linarith))

/-- C4 (witness): instantiated at `x₁ = 1`, `x₂ = exp 4`. -/
theorem C4_transform_monotone_witness : transform 1 ≤ transform (Real.exp 4) :=
  C4_transform_monotone 1 (Real.exp 4)
    (by rw [show (1:ℝ) = Real.exp 0 from (Real.exp_zero).symm]
        exact Real.exp_le_exp.mpr (by norm_num [qlo]))
    (by rw [show (1:ℝ) = Real.exp 0 from (Real.exp_zero).symm]
        exact Real.exp_le_exp.mpr (by norm_num))
    (Real.exp_lt_exp.mpr (by norm_num [qhi]))

/-- The all-zero 40×40 image. -/
def zeroImg : Fin 40 → Fin 40 → ℝ := fun _ _ => 0

/-- Elementwise `transform` on a 40×40 image, as in
`transform(x_train)`. -/
noncomputable def transformImg (g : Fin 40 → Fin 40 → ℝ) : Fin 40 → Fin 40 → ℕ :=
  fun a b => transform (g a b)

/-- Elementwise `reverse_transform` on a quantized 40×40 image. -/
noncomputable def reverseTransformImg (g : Fin 40 → Fin 40 → ℕ) : Fin 40 → Fin 40 → ℝ :=
  fun a b => reverse_transform (g a b)

/-- C5 (confirmed): exact zero is preserved by both codec directions
(`np.where(x != 0, ..., 0)` short-circuits the log/exp branch), so an
all-zero image round-trips to an all-zero image exactly. -/
theorem C5_zero_preserved :
    transform 0 = 0 ∧ reverse_transform 0 = 0 ∧
      reverseTransformImg (transformImg zeroImg) = zeroImg := by
  refine ⟨transform_zero, reverse_transform_zero, ?_⟩
  funext a b
  simp [reverseTransformImg, transformImg, zeroImg, transform_zero, reverse_transform_zero]

/-- C8 (counterexample): code 0 is not reserved for exact zero: the
nonzero input `exp 5` (upper end of the claimed representable range) is
mapped to code 0 by the wrapping uint8 cast. -/
theorem C8_counterexample : transform (Real.exp 5) = 0 ∧ Real.exp 5 ≠ 0 :=
  ⟨transform_exp_five, ne_of_gt (Real.exp_pos 5)⟩

/-- C8 (amended): every code is in `[0, 255]` and `transform 0 = 0`, and
on the half-open representable range `exp lo ≤ x < exp hi` nonzero inputs
get nonzero codes — but nonzero inputs outside that range can also wrap
to code 0, so `transform x = 0` does not imply `x = 0`. -/
theorem C8_code_range (x : ℝ) (_h0 : 0 ≤ x) :
    transform x ≤ 255 ∧ (x = 0 → transform x = 0) ∧
      (Real.exp qlo ≤ x → x < Real.exp qhi → transform x ≠ 0) := by
  refine ⟨by have := uint8cast_lt (if x ≠ 0 then (Real.log x - qlo) / (qhi - qlo) * 255 + 1 else 0)
             rw [transform]; omega,
    fun hx => by rw [hx]; exact transform_zero,
    fun hlo hhi => ?_⟩
  obtain ⟨-, h1, -⟩ := transform_in_range hlo hhi
  omega

/-- C8 (witness): instantiated at `x = 1`, with the range hypotheses of
the third conjunct discharged concretely as well. -/
theorem C8_code_range_witness : transform 1 ≤ 255 ∧ transform 1 ≠ 0 :=
  ⟨(C8_code_range 1 (by norm_num)).1,
   (C8_code_range 1 (by norm_num)).2.2
     (by rw [show (1:ℝ) = Real.exp 0 from (Real.exp_zero).symm]
         exact Real.exp_le_exp.mpr (by norm_num [qlo]))
     (by rw [show (1:ℝ) = Real.exp 0 from (Real.exp_zero).symm]
         exact Real.exp_lt_exp.mpr (by norm_num [qhi]))⟩

/-- C10 (confirmed): requantizing a dequantized code is the identity on
`[0, 255]`: code 0 round-trips through the zero sentinel, and for
`1 ≤ q ≤ 255` the pre-cast value of `transform (reverse_transform q)` is
exactly `q`, which the uint8 cast returns unchanged. -/
theorem C10_code_roundtrip (q : ℕ) (hq : q ≤ 255) :
    transform (reverse_transform q) = q := by
  rcases Nat.eq_zero_or_pos q with h0 | hpos
  · rw [h0, reverse_transform_zero, transform_zero]
  · have hne : q ≠ 0 := by omega
    rw [reverse_transform_of_ne_zero hne,
      transform_of_ne_zero (ne_of_gt (Real.exp_pos _)), Real.log_exp]
    have harith : 17 * (((q : ℝ) - 1) / 255 * 15 - 10) + 171 = (q : ℝ) := by ring
    rw [harith, uint8cast_natCast hq]

/-- C10 (witness): instantiated at `q = 200`. -/
theorem C10_code_roundtrip_witness : transform (reverse_transform 200) = 200 :=
  C10_code_roundtrip 200 (by norm_num)

/-! ### Coordinate transform `get_df_rel`

Source (notebook cell):
```
for i in range(200):
    df_rel["PT_{}".format(i)] = np.sqrt(df["PX_{}".format(i)]**2 + df["PY_{}".format(i)]**2)
    df_rel["ETA_{}".format(i)] = np.arcsinh(df["PZ_{}".format(i)]/df_rel["PT_{}".format(i)])
    df_rel["PHI_{}".format(i)] = np.arcsin(df["PY_{}".format(i)]/df_rel["PT_{}".format(i)])
...
for i in range(200):
    df_rel["PT_{}".format(i)] = df_rel["PT_{}".format(i)] / PT_0
    df_rel["ETA_{}".format(i)] = df_rel["ETA_{}".format(i)] - ETA_0
    df_rel["PHI_{}".format(i)] = df_rel["PHI_{}".format(i)] - PHI_0
df_rel.fillna(0, inplace=True)
```
The raw four-vector components are finite floats, but the divisions can
produce ±infinity (`a/0` for `a ≠ 0`) or NaN (`0/0`), and `fillna`
replaces only NaN.  The type `F` models an IEEE double as NaN, ±infinity
or a finite real. -/

/-- An IEEE floating-point value: NaN, +infinity, -infinity, or finite. -/
inductive F : Type
  | nan : F
  | pinf : F
  | ninf : F
  | fin (r : ℝ) : F

/-- IEEE division of two finite values, as numpy performs it:
`a/0 = +inf` for `a > 0`, `-inf` for `a < 0`, NaN for `0/0`. -/
noncomputable def fdiv (a b : ℝ) : F :=
  if b ≠ 0 then .fin (a / b) else if 0 < a then .pinf else if a < 0 then .ninf else .nan

/-- Model of `np.arcsinh` on an extended value: finite on finite input, preserves
±infinity, NaN on NaN. -/
noncomputable def F.arsinh : F → F
  | .fin r => .fin (Real.arsinh r)
  | .pinf => .pinf
  | .ninf => .ninf
  | .nan => .nan

/-- Model of `np.arcsin` on an extended value: defined on `[-1, 1]`, NaN outside
(including on ±infinity and NaN). -/
noncomputable def F.arcsin : F → F
  | .fin r => if -1 ≤ r ∧ r ≤ 1 then .fin (Real.arcsin r) else .nan
  | _ => .nan

/-- IEEE subtraction on extended values. -/
def F.sub : F → F → F
  | .nan, _ => .nan
  | _, .nan => .nan
  | .pinf, .pinf => .nan
  | .pinf, _ => .pinf
  | .ninf, .ninf => .nan
  | .ninf, _ => .ninf
  | .fin _, .pinf => .ninf
  | .fin _, .ninf => .pinf
  | .fin a, .fin b => .fin (a - b)

/-- Model of `fillna(0)`: NaN becomes 0; ±infinity is NOT replaced. -/
def F.fillna : F → F
  | .nan => .fin 0
  | v => v

lemma F.nan_sub (x : F) : F.sub F.nan x = F.nan := by cases x <;> rfl

lemma F.sub_nan (x : F) : F.sub x F.nan = F.nan := by cases x <;> rfl

lemma F.pinf_sub_fin (b : ℝ) : F.sub F.pinf (F.fin b) = F.pinf := rfl

lemma F.fin_sub_fin (a b : ℝ) : F.sub (F.fin a) (F.fin b) = F.fin (a - b) := rfl

/-- A jet record: 200 particle slots of four-vector components
`(E, px, py, pz)`, zero-padded beyond the actual constituents. -/
structure Jet : Type where
  e : Fin 200 → ℝ
  px : Fin 200 → ℝ
  py : Fin 200 → ℝ
  pz : Fin 200 → ℝ

/-- The `PT_i` column of `df_rel` before normalization:
`sqrt(px_i² + py_i²)`.  Always a finite real. -/
noncomputable def ptRaw (j : Jet) (i : Fin 200) : ℝ :=
  Real.sqrt (j.px i ^ 2 + j.py i ^ 2)

/-- The `ETA_i` column of `df_rel` before shifting: `arcsinh(pz_i / PT_i)`. -/
noncomputable def etaRaw (j : Jet) (i : Fin 200) : F :=
  F.arsinh (fdiv (j.pz i) (ptRaw j i))

/-- The `PHI_i` column of `df_rel` before shifting: `arcsin(py_i / PT_i)`. -/
noncomputable def phiRaw (j : Jet) (i : Fin 200) : F :=
  F.arcsin (fdiv (j.py i) (ptRaw j i))

/-- Final `PT_i` column of `get_df_rel`: `PT_i / PT_0`, then `fillna(0)`. -/
noncomputable def ptRel (j : Jet) (i : Fin 200) : F :=
  F.fillna (fdiv (ptRaw j i) (ptRaw j 0))

/-- Final `ETA_i` column of `get_df_rel`: `ETA_i - ETA_0`, then
`fillna(0)`. -/
noncomputable def etaRel (j : Jet) (i : Fin 200) : F :=
  F.fillna (F.sub (etaRaw j i) (etaRaw j 0))

/-- Final `PHI_i` column of `get_df_rel`: `PHI_i - PHI_0`, then
`fillna(0)`. -/
noncomputable def phiRel (j : Jet) (i : Fin 200) : F :=
  F.fillna (F.sub (phiRaw j i) (phiRaw j 0))

lemma ptRaw_nonneg (j : Jet) (i : Fin 200) : 0 ≤ ptRaw j i := Real.sqrt_nonneg _

lemma abs_py_le_ptRaw (j : Jet) (i : Fin 200) : |j.py i| ≤ ptRaw j i := by
  rw [ptRaw, ← Real.sqrt_sq_eq_abs]
  exact Real.sqrt_le_sqrt (by nlinarith [sq_nonneg (j.px i)])

lemma ptRaw_eq_zero_iff (j : Jet) (i : Fin 200) :
    ptRaw j i = 0 ↔ j.px i = 0 ∧ j.py i = 0 := by
  rw [ptRaw, Real.sqrt_eq_zero (by positivity)]
  constructor
  · intro h
    constructor <;> nlinarith [sq_nonneg (j.px i), sq_nonneg (j.py i)]
  · rintro ⟨h1, h2⟩
    rw [h1, h2]
    ring

lemma F.fillna_fin (r : ℝ) : F.fillna (F.fin r) = F.fin r := rfl

lemma F.fillna_nan : F.fillna F.nan = F.fin 0 := rfl

lemma F.fillna_pinf : F.fillna F.pinf = F.pinf := rfl

lemma fdiv_of_ne_zero {b : ℝ} (a : ℝ) (hb : b ≠ 0) : fdiv a b = F.fin (a / b) := by
  rw [fdiv, if_pos hb]

lemma fdiv_zero_zero : fdiv 0 0 = F.nan := by simp [fdiv]

lemma fdiv_pos_zero {a : ℝ} (ha : 0 < a) : fdiv a 0 = F.pinf := by
  simp [fdiv, ha]

/-! ### Theorems for the coordinate-transform claims -/

/-- The all-zero jet: every four-vector component of every slot is 0, as
for a fully zero-padded record. -/
def zeroJet : Jet := ⟨fun _ => 0, fun _ => 0, fun _ => 0, fun _ => 0⟩

lemma ptRaw_zeroJet (i : Fin 200) : ptRaw zeroJet i = 0 := by
  simp [ptRaw, zeroJet]

/-- The spec's test jet, with the padded slot 1 perturbed to `pz = 1`:
slot 0 is `(E=10, px=3, py=4, pz=0)` and slot 1 is `(E=5, px=0, py=0,
pz=1)`, all further slots zero. -/
def exJet : Jet where
  e := fun i => if i = 0 then 10 else if i = 1 then 5 else 0
  px := fun i => if i = 0 then 3 else 0
  py := fun i => if i = 0 then 4 else 0
  pz := fun i => if i = 1 then 1 else 0

lemma ptRaw_exJet_zero : ptRaw exJet 0 = 5 := by
  have h : ptRaw exJet 0 = Real.sqrt ((3:ℝ) ^ 2 + 4 ^ 2) := by
    simp [ptRaw, exJet]
  rw [h, show (3:ℝ) ^ 2 + 4 ^ 2 = 5 ^ 2 by norm_num, Real.sqrt_sq (by norm_num)]

lemma ptRaw_exJet_one : ptRaw exJet 1 = 0 := by
  have h10 : (1 : Fin 200) ≠ 0 := by decide
  simp [ptRaw, exJet, h10]

/-- C2 (counterexample): for the all-zero jet the leading slot's `PT_0`
is 0, so `PT_0 / PT_0 = 0/0 = NaN`, which `fillna` maps to 0 — the
leading particle's relative pt is 0, not the claimed 1. -/
theorem C2_counterexample : ptRel zeroJet 0 = F.fin 0 ∧ F.fin 0 ≠ F.fin 1 := by
  constructor
  · rw [ptRel, ptRaw_zeroJet, fdiv_zero_zero, F.fillna_nan]
  · simp

/-- C2 (amended): whenever the leading particle has nonzero transverse
momentum, slot 0 maps to exactly `(pt=1, eta=0, phi=0)`; for a zero-pt
leading particle the `0/0` NaN is filled with 0 instead, so pt becomes 0
(see the counterexample). -/
theorem C2_leading_particle (j : Jet) (h : ptRaw j 0 ≠ 0) :
    ptRel j 0 = F.fin 1 ∧ etaRel j 0 = F.fin 0 ∧ phiRel j 0 = F.fin 0 := by
  have hpos : 0 < ptRaw j 0 := lt_of_le_of_ne (ptRaw_nonneg j 0) (Ne.symm h)
  refine ⟨?_, ?_, ?_⟩
  · rw [ptRel, fdiv_of_ne_zero _ h, div_self h, F.fillna_fin]
  · have heta : etaRaw j 0 = F.fin (Real.arsinh (j.pz 0 / ptRaw j 0)) := by
      rw [etaRaw, fdiv_of_ne_zero _ h, F.arsinh]
    rw [etaRel, heta, F.fin_sub_fin, sub_self, F.fillna_fin]
  · have hb : |j.py 0 / ptRaw j 0| ≤ 1 := by
      rw [abs_div, abs_of_pos hpos]
      exact (div_le_one hpos).mpr (abs_py_le_ptRaw j 0)
    have hb2 := abs_le.mp hb
    have hphi : phiRaw j 0 = F.fin (Real.arcsin (j.py 0 / ptRaw j 0)) := by
      rw [phiRaw, fdiv_of_ne_zero _ h, F.arcsin, if_pos ⟨hb2.1, hb2.2⟩]
    rw [phiRel, hphi, F.fin_sub_fin, sub_self, F.fillna_fin]

/-- C2 (witness): instantiated at a jet whose leading particle is
`(E=10, px=3, py=4, pz=0)`, so `PT_0 = 5 ≠ 0`. -/
theorem C2_leading_particle_witness :
    ptRel exJet 0 = F.fin 1 ∧ etaRel exJet 0 = F.fin 0 ∧ phiRel exJet 0 = F.fin 0 :=
  C2_leading_particle exJet (by rw [ptRaw_exJet_zero]; norm_num)

/-- C3 (counterexample): in `exJet`, slot 1 has `pt_1 = 0` but
`pz_1 = 1`: the code computes `eta_1 = arcsinh(1/0) = +infinity`, the
shift by the finite `eta_0` keeps it `+infinity`, and `fillna(0)`
replaces only NaN — so the relative eta of a zero-pt slot is +infinity,
not the claimed 0. -/
theorem C3_counterexample :
    ptRaw exJet 1 = 0 ∧ etaRel exJet 1 = F.pinf ∧ F.pinf ≠ F.fin 0 := by
  have h10 : (1 : Fin 200) ≠ 0 := by decide
  refine ⟨ptRaw_exJet_one, ?_, by simp⟩
  have h1 : etaRaw exJet 1 = F.pinf := by
    rw [etaRaw, ptRaw_exJet_one, show exJet.pz 1 = 1 by simp [exJet],
      fdiv_pos_zero (by norm_num), F.arsinh]
  have h0 : etaRaw exJet 0 = F.fin 0 := by
    rw [etaRaw, ptRaw_exJet_zero, show exJet.pz 0 = 0 by simp [exJet, h10],
      fdiv_of_ne_zero _ (by norm_num : (5:ℝ) ≠ 0), F.arsinh]
    norm_num [Real.arsinh_zero]
  rw [etaRel, h1, h0, F.pinf_sub_fin, F.fillna_pinf]

/-- C3 (amended): in a slot with `pt_i = 0` (which forces `py_i = 0`),
the relative phi is always 0 (a `0/0` NaN filled with 0), and the
relative eta is 0 provided `pz_i = 0` as well — the zero-padding case.
When `pz_i ≠ 0`, `pz_i/0` is ±infinity, which `fillna` does not replace
(see the counterexample). -/
theorem C3_zero_pt_slot (j : Jet) (i : Fin 200) (hpt : ptRaw j i = 0) :
    (j.pz i = 0 → etaRel j i = F.fin 0) ∧ phiRel j i = F.fin 0 := by
  obtain ⟨-, hpy⟩ := (ptRaw_eq_zero_iff j i).mp hpt
  constructor
  · intro hpz
    have h1 : etaRaw j i = F.nan := by
      rw [etaRaw, hpz, hpt, fdiv_zero_zero, F.arsinh]
    rw [etaRel, h1, F.nan_sub, F.fillna_nan]
  · have h1 : phiRaw j i = F.nan := by
      rw [phiRaw, hpy, hpt, fdiv_zero_zero]
      rfl
    rw [phiRel, h1, F.nan_sub, F.fillna_nan]

/-- C3 (witness): instantiated at the all-zero jet, slot 1. -/
theorem C3_zero_pt_slot_witness :
    etaRel zeroJet 1 = F.fin 0 ∧ phiRel zeroJet 1 = F.fin 0 :=
  ⟨(C3_zero_pt_slot zeroJet 1 (ptRaw_zeroJet 1)).1 rfl,
   (C3_zero_pt_slot zeroJet 1 (ptRaw_zeroJet 1)).2⟩

/-! ### Rasterizer `get_img_array` / `np.histogram2d`

Source (notebook cell):
```
hist, xedges, yedges = np.histogram2d(eta, phi, bins=(40, 40),
                                      range=([-1, 1], [-1, 1]), weights=pt)
```
Uniform bins of width `1/20` on `[-1, 1]` in each coordinate; a value is
assigned to bin `⌊(v+1)·20⌋` when `-1 ≤ v < 1`, to the last bin when
`v = 1` (numpy closes the rightmost bin), and dropped otherwise.  Each
cell accumulates the `pt` weights of the particles falling into it. -/

/-- One particle of a rasterizer input: a `(pt, eta, phi)` triple. -/
structure P3 : Type where
  pt : ℝ
  eta : ℝ
  phi : ℝ

/-- Bin index of a coordinate for 40 uniform bins on `[-1, 1]`, with
numpy's histogram semantics: half-open bins, right-closed last bin,
out-of-range values dropped. -/
noncomputable def binIdx (v : ℝ) : Option (Fin 40) :=
  if h : -1 ≤ v ∧ v < 1 then
    some ⟨(⌊(v + 1) * 20⌋).toNat, by
      have h2 : (v + 1) * 20 < 40 := by nlinarith [h.2]
      have h3 : ⌊(v + 1) * 20⌋ < 40 := Int.floor_lt.mpr (by exact_mod_cast h2)
      omega⟩
  else if v = 1 then some ⟨39, by norm_num⟩ else none

/-- A coordinate pair is in the histogram range when both coordinates
lie in `[-1, 1]`. -/
def P3.inRange (p : P3) : Prop :=
  (-1 ≤ p.eta ∧ p.eta ≤ 1) ∧ (-1 ≤ p.phi ∧ p.phi ≤ 1)

lemma binIdx_isSome_iff (v : ℝ) : (binIdx v).isSome ↔ (-1 ≤ v ∧ v ≤ 1) := by
  rw [binIdx]
  split_ifs with h1 h2
  · exact iff_of_true (by simp) ⟨h1.1, le_of_lt h1.2⟩
  · exact iff_of_true (by simp) (by rw [h2]; norm_num)
  · refine iff_of_false (by simp) fun hc => ?_
    rcases lt_or_eq_of_le hc.2 with hlt | heq
    · exact h1 ⟨hc.1, hlt⟩
    · exact h2 heq

/-- Model of `np.histogram2d` on a list of particles: the `(a, b)` cell holds the
sum of the `pt` weights of the particles whose eta falls in bin `a` and
whose phi falls in bin `b`. -/
noncomputable def hist2d (l : List P3) : Fin 40 → Fin 40 → ℝ :=
  fun a b =>
    (l.map (fun p => if binIdx p.eta = some a ∧ binIdx p.phi = some b then p.pt else 0)).sum

/-- Sum of all 40×40 cells of a grid. -/
def gridTotal (g : Fin 40 → Fin 40 → ℝ) : ℝ := ∑ a : Fin 40, ∑ b : Fin 40, g a b

/-- Sum of the input `pt` weights. -/
def ptTotal (l : List P3) : ℝ := (l.map P3.pt).sum

lemma sum_ite_pair (oa ob : Option (Fin 40)) (w : ℝ) :
    (∑ a : Fin 40, ∑ b : Fin 40, if oa = some a ∧ ob = some b then w else 0) =
      if oa.isSome ∧ ob.isSome then w else 0 := by
  rcases oa with _ | a0 <;> rcases ob with _ | b0 <;> simp [ite_and, Finset.sum_ite_eq]

lemma gridTotal_hist2d (l : List P3) :
    gridTotal (hist2d l) =
      (l.map (fun p => if (binIdx p.eta).isSome ∧ (binIdx p.phi).isSome
        then p.pt else 0)).sum := by
  induction l with
  | nil => simp [gridTotal, hist2d]
  | cons p l ih =>
    have hcons : ∀ a b : Fin 40, hist2d (p :: l) a b =
        (if binIdx p.eta = some a ∧ binIdx p.phi = some b then p.pt else 0) +
          hist2d l a b := by
      intro a b
      simp [hist2d]
    calc gridTotal (hist2d (p :: l))
        = (∑ a : Fin 40, ∑ b : Fin 40,
            ((if binIdx p.eta = some a ∧ binIdx p.phi = some b then p.pt else 0) +
              hist2d l a b)) := by
          unfold gridTotal
          exact Finset.sum_congr rfl fun a _ => Finset.sum_congr rfl fun b _ => hcons a b
    _ = (∑ a : Fin 40, ∑ b : Fin 40,
            (if binIdx p.eta = some a ∧ binIdx p.phi = some b then p.pt else 0)) +
          gridTotal (hist2d l) := by
          unfold gridTotal
          rw [← Finset.sum_add_distrib]
          exact Finset.sum_congr rfl fun a _ => Finset.sum_add_distrib
    _ = (if (binIdx p.eta).isSome ∧ (binIdx p.phi).isSome then p.pt else 0) +
          (l.map (fun p => if (binIdx p.eta).isSome ∧ (binIdx p.phi).isSome
            then p.pt else 0)).sum := by
          rw [sum_ite_pair, ih]
    _ = _ := by simp

lemma list_sum_eq_zero_iff {l : List ℝ} (h : ∀ x ∈ l, 0 ≤ x) :
    l.sum = 0 ↔ ∀ x ∈ l, x = 0 := by
  induction l with
  | nil => simp
  | cons x l ih =>
    have hx : 0 ≤ x := h x (List.mem_cons_self x l)
    have hl : ∀ y ∈ l, 0 ≤ y := fun y hy => h y (List.mem_cons_of_mem x hy)
    have hs : 0 ≤ l.sum := List.sum_nonneg hl
    rw [List.sum_cons]
    constructor
    · intro h0
      have hx0 : x = 0 := by linarith
      have hl0 : l.sum = 0 := by linarith
      intro y hy
      rcases List.mem_cons.mp hy with rfl | hy'
      · exact hx0
      · exact (ih hl).mp hl0 y hy'
    · intro hall
      rw [hall x (List.mem_cons_self x l), (ih hl).mpr fun y hy =>
        hall y (List.mem_cons_of_mem x hy), add_zero]

lemma kept_add_dropped (l : List P3) :
    gridTotal (hist2d l) +
      (l.map (fun p => if (binIdx p.eta).isSome ∧ (binIdx p.phi).isSome
        then 0 else p.pt)).sum = ptTotal l := by
  rw [gridTotal_hist2d]
  induction l with
  | nil => simp [ptTotal]
  | cons p l ih =>
    simp only [List.map_cons, List.sum_cons, ptTotal] at ih ⊢
    by_cases hc : (binIdx p.eta).isSome ∧ (binIdx p.phi).isSome
    · rw [if_pos hc, if_pos hc]
      linarith
    · rw [if_neg hc, if_neg hc]
      linarith

lemma inRange_iff_isSome (p : P3) :
    P3.inRange p ↔ ((binIdx p.eta).isSome ∧ (binIdx p.phi).isSome) := by
  rw [P3.inRange, binIdx_isSome_iff, binIdx_isSome_iff]

/-- C6 (counterexample): for the two-particle input
`[(pt=1, eta=0, phi=0), (pt=0, eta=5, phi=0)]` the grid total equals the
input pt total (the out-of-range particle carries zero weight), yet not
every particle's `(eta, phi)` is inside `[-1,1] × [-1,1]` — so equality
does not hold *exactly when* all particles are in range. -/
theorem C6_counterexample :
    (∀ p ∈ [P3.mk 1 0 0, P3.mk 0 5 0], 0 ≤ p.pt) ∧
      gridTotal (hist2d [P3.mk 1 0 0, P3.mk 0 5 0]) =
        ptTotal [P3.mk 1 0 0, P3.mk 0 5 0] ∧
      ¬ ∀ p ∈ [P3.mk 1 0 0, P3.mk 0 5 0], P3.inRange p := by
  have h0 : ((binIdx (0:ℝ)).isSome ∧ (binIdx (0:ℝ)).isSome) := by
    rw [binIdx_isSome_iff]
    norm_num
  have h5 : ¬ ((binIdx (5:ℝ)).isSome ∧ (binIdx (0:ℝ)).isSome) := by
    rw [binIdx_isSome_iff]
    rintro ⟨⟨-, hc⟩, -⟩
    norm_num at hc
  refine ⟨by rintro p hp; rcases List.mem_cons.mp hp with rfl | hp' <;> simp_all,
    ?_, ?_⟩
  · rw [gridTotal_hist2d]
    simp only [List.map_cons, List.map_nil, List.sum_cons, List.sum_nil, ptTotal]
    rw [if_pos h0, if_neg h5]
  · intro hall
    have := hall (P3.mk 0 5 0) (by simp)
    rw [P3.inRange] at this
    norm_num at this

/-- C6 (amended): for inputs with nonnegative weights, the grid total is
at most the input pt total, with equality exactly when every particle of
*nonzero* pt lands in `[-1,1] × [-1,1]` (an out-of-range particle of zero
pt loses nothing, so the claim's "equality iff all particles in range"
only holds up to zero-weight particles). -/
theorem C6_hist_sum (l : List P3) (_hlen : l.length ≤ 200) (hpt : ∀ p ∈ l, 0 ≤ p.pt) :
    gridTotal (hist2d l) ≤ ptTotal l ∧
      (gridTotal (hist2d l) = ptTotal l ↔ ∀ p ∈ l, p.pt ≠ 0 → P3.inRange p) := by
  have hkept := kept_add_dropped l
  have hdropnn : ∀ x ∈ l.map (fun p => if (binIdx p.eta).isSome ∧ (binIdx p.phi).isSome
      then 0 else p.pt), 0 ≤ x := by
    intro x hx
    obtain ⟨p, hp, rfl⟩ := List.mem_map.mp hx
    by_cases hc : (binIdx p.eta).isSome ∧ (binIdx p.phi).isSome
    · rw [if_pos hc]
    · rw [if_neg hc]
      exact hpt p hp
  have hdrop : 0 ≤ (l.map (fun p => if (binIdx p.eta).isSome ∧ (binIdx p.phi).isSome
      then 0 else p.pt)).sum := List.sum_nonneg hdropnn
  constructor
  · linarith
  · rw [show (gridTotal (hist2d l) = ptTotal l) ↔
        (l.map (fun p => if (binIdx p.eta).isSome ∧ (binIdx p.phi).isSome
          then 0 else p.pt)).sum = 0 from by constructor <;> intro h <;> linarith]
    rw [list_sum_eq_zero_iff hdropnn]
    constructor
    · intro hall p hp hne
      have := hall _ (List.mem_map.mpr ⟨p, hp, rfl⟩)
      rw [inRange_iff_isSome]
      by_contra hc
      rw [if_neg hc] at this
      exact hne this
    · intro hall x hx
      obtain ⟨p, hp, rfl⟩ := List.mem_map.mp hx
      by_cases hc : (binIdx p.eta).isSome ∧ (binIdx p.phi).isSome
      · rw [if_pos hc]
      · rw [if_neg hc]
        by_contra hne
        exact hc ((inRange_iff_isSome p).mp (hall p hp hne))

/-- C6 (witness): instantiated at the single-particle list
`[(pt=1, eta=0, phi=0)]`. -/
theorem C6_hist_sum_witness :
    gridTotal (hist2d [P3.mk 1 0 0]) ≤ ptTotal [P3.mk 1 0 0] ∧
      (gridTotal (hist2d [P3.mk 1 0 0]) = ptTotal [P3.mk 1 0 0] ↔
        ∀ p ∈ [P3.mk 1 0 0], p.pt ≠ 0 → P3.inRange p) :=
  C6_hist_sum [P3.mk 1 0 0] (by norm_num)
    (by rintro p hp; rcases List.mem_cons.mp hp with rfl | hp' <;> simp_all)

/-- C7 (confirmed): the rasterized grid is invariant under permutation
of the particle list — each cell is a sum over the list, and sums are
permutation-invariant. -/
theorem C7_hist_perm (l l' : List P3) (h : l.Perm l') : hist2d l = hist2d l' := by
  funext a b
  exact List.Perm.sum_eq (h.map _)

/-- C7 (witness): instantiated at a concrete two-particle swap. -/
theorem C7_hist_perm_witness :
    hist2d [P3.mk 2 0 0, P3.mk 3 1 1] = hist2d [P3.mk 3 1 1, P3.mk 2 0 0] :=
  C7_hist_perm _ _ (List.Perm.swap _ _ _)

/-! ### Chunked batch driver `preprocess`

Source (notebook cell):
```
def preprocess(df_path, n_examples=100000, chunksize=10000):
    x = []
    y = []
    for start in range(0, n_examples, chunksize):
        df = pd.read_hdf(df_path, "table", start=start, stop=start + chunksize)
        df_rel = get_df_rel(df)
        x.append(get_img_array(df_rel))
        y.append(df_rel.is_signal_new.values)
    return np.concatenate(x), np.concatenate(y)
```
The external table read is modelled as slicing a list of rows:
the chunk starting at `start` is `(table.drop start).take chunksize`.
`get_df_rel` keeps the `is_signal_new` label column alongside the
relative coordinates, and `get_img_array` histograms each row's 200
`(pt, eta, phi)` slots. -/

/-- IEEE addition on extended values (used when histogram weights are
accumulated into a cell). -/
def F.add : F → F → F
  | .nan, _ => .nan
  | _, .nan => .nan
  | .pinf, .ninf => .nan
  | .ninf, .pinf => .nan
  | .pinf, _ => .pinf
  | _, .pinf => .pinf
  | .ninf, _ => .ninf
  | _, .ninf => .ninf
  | .fin a, .fin b => .fin (a + b)

/-- Bin index of an extended-valued coordinate: NaN and ±infinity never
fall into a bin of the finite range `[-1, 1]`. -/
noncomputable def binF : F → Option (Fin 40)
  | .fin v => binIdx v
  | _ => none

/-- A row of the input table: the `is_signal_new` label and the 200
four-vector slots. -/
structure Row : Type where
  label : ℤ
  jet : Jet

/-- The relative `(PT_i, ETA_i, PHI_i)` triples of one jet, as computed
by `get_df_rel`. -/
noncomputable def relTriples (j : Jet) : Fin 200 → F × F × F :=
  fun i => (ptRel j i, etaRel j i, phiRel j i)

/-- Row-level `get_df_rel`: the label is copied through, the coordinate
columns are replaced by the relative triples. -/
noncomputable def relRow (r : Row) : ℤ × (Fin 200 → F × F × F) :=
  (r.label, relTriples r.jet)

/-- Function `get_df_rel` on a whole table (list of rows). -/
noncomputable def get_df_rel (df : List Row) : List (ℤ × (Fin 200 → F × F × F)) :=
  df.map relRow

/-- The per-jet 40×40 histogram computed inside `get_img_array`:
`np.histogram2d(eta, phi, bins=(40,40), range=([-1,1],[-1,1]),
weights=pt)` over the 200 slots. -/
noncomputable def jetHist (tr : Fin 200 → F × F × F) : Fin 40 → Fin 40 → F :=
  fun a b =>
    ((List.finRange 200).map (fun i =>
      if binF (tr i).2.1 = some a ∧ binF (tr i).2.2 = some b
      then (tr i).1 else F.fin 0)).foldr F.add (F.fin 0)

/-- Function `get_img_array` on a `get_df_rel` output: one image per row. -/
noncomputable def get_img_array (dfr : List (ℤ × (Fin 200 → F × F × F))) :
    List (Fin 40 → Fin 40 → F) :=
  dfr.map (fun rr => jetHist rr.2)

/-- The expression `df_rel.is_signal_new.values`: the label column of a `get_df_rel`
output. -/
def labelsOf (dfr : List (ℤ × (Fin 200 → F × F × F))) : List ℤ :=
  dfr.map Prod.fst

/-- The image `preprocess` derives from a single input row. -/
noncomputable def rowImg (r : Row) : Fin 40 → Fin 40 → F :=
  jetHist (relTriples r.jet)

/-- Function `preprocess`: chunked map over the table followed by concatenation,
returning the image array and the label array. -/
noncomputable def preprocess (table : List Row) (n cs : ℕ) :
    List (Fin 40 → Fin 40 → F) × List ℤ :=
  ⟨(((List.range' 0 ((n + cs - 1) / cs) cs).map (fun s => (table.drop s).take cs)).map
      (fun c => get_img_array (get_df_rel c))).flatten,
   (((List.range' 0 ((n + cs - 1) / cs) cs).map (fun s => (table.drop s).take cs)).map
      (fun c => labelsOf (get_df_rel c))).flatten⟩

lemma get_img_array_get_df_rel (c : List Row) :
    get_img_array (get_df_rel c) = c.map rowImg := by
  rw [get_img_array, get_df_rel, List.map_map]
  rfl

lemma labelsOf_get_df_rel (c : List Row) :
    labelsOf (get_df_rel c) = c.map Row.label := by
  rw [labelsOf, get_df_rel, List.map_map]
  rfl

lemma flatten_chunks {α β : Type} (f : α → β) (cs : ℕ) :
    ∀ (k a : ℕ) (t : List α),
      ((List.range' a k cs).map (fun s => ((t.drop s).take cs).map f)).flatten =
        ((t.drop a).take (k * cs)).map f := by
  intro k
  induction k with
  | zero => intro a t; simp
  | succ k ih =>
    intro a t
    rw [List.range'_succ, List.map_cons, List.flatten_cons, ih (a + cs) t,
      show (k + 1) * cs = cs + k * cs from by ring,
      List.take_add, List.map_append, List.drop_drop]

lemma preprocess_images (table : List Row) (n cs : ℕ) :
    (preprocess table n cs).1 =
      (table.take (((n + cs - 1) / cs) * cs)).map rowImg := by
  rw [preprocess]
  simp only [List.map_map]
  have h : ((fun c => get_img_array (get_df_rel c)) ∘ fun s => (table.drop s).take cs) =
      fun s => ((table.drop s).take cs).map rowImg := by
    funext s
    exact get_img_array_get_df_rel _
  rw [h, flatten_chunks rowImg cs ((n + cs - 1) / cs) 0 table, List.drop_zero]

lemma preprocess_labels (table : List Row) (n cs : ℕ) :
    (preprocess table n cs).2 =
      (table.take (((n + cs - 1) / cs) * cs)).map Row.label := by
  rw [preprocess]
  simp only [List.map_map]
  have h : ((fun c => labelsOf (get_df_rel c)) ∘ fun s => (table.drop s).take cs) =
      fun s => ((table.drop s).take cs).map Row.label := by
    funext s
    exact labelsOf_get_df_rel _
  rw [h, flatten_chunks Row.label cs ((n + cs - 1) / cs) 0 table, List.drop_zero]

lemma ceil_div_mul_ge (n cs : ℕ) (hcs : 0 < cs) : n ≤ ((n + cs - 1) / cs) * cs := by
  rcases Nat.eq_zero_or_pos n with rfl | hn
  · exact Nat.zero_le _
  · have h1 : n + cs - 1 = (n - 1) + cs := by omega
    have h2 : (n - 1) / cs < (n - 1) / cs + 1 := by omega
    have h3 := (Nat.div_lt_iff_lt_mul hcs).mp h2
    rw [h1, Nat.add_div_right _ hcs]
    omega

/-- C9 (confirmed): chunked preprocessing preserves input-to-output
correspondence: for every index `i` covered by both the requested count
and the table, the `i`-th image of the concatenated output is the image
derived from the `i`-th input row, and the `i`-th label is that row's
label, passed through unchanged. -/
theorem C9_preprocess_alignment (table : List Row) (n cs i : ℕ) (hcs : 0 < cs)
    (hin : i < n) (hit : i < table.length) :
    (preprocess table n cs).1[i]? = some (rowImg table[i]) ∧
      (preprocess table n cs).2[i]? = some (table[i].label) := by
  have hik : i < ((n + cs - 1) / cs) * cs :=
    lt_of_lt_of_le hin (ceil_div_mul_ge n cs hcs)
  constructor
  · rw [preprocess_images, List.getElem?_map, List.getElem?_take_of_lt hik,
      List.getElem?_eq_getElem hit]
    rfl
  · rw [preprocess_labels, List.getElem?_map, List.getElem?_take_of_lt hik,
      List.getElem?_eq_getElem hit]
    rfl

/-- C9 (witness): a two-row table processed with `n = 2`, chunk size 1:
row 0 keeps its image and its label 1 at index 0. -/
theorem C9_preprocess_alignment_witness :
    (preprocess [Row.mk 1 zeroJet, Row.mk 0 exJet] 2 1).1[0]? =
        some (rowImg (Row.mk 1 zeroJet)) ∧
      (preprocess [Row.mk 1 zeroJet, Row.mk 0 exJet] 2 1).2[0]? = some 1 :=
  C9_preprocess_alignment [Row.mk 1 zeroJet, Row.mk 0 exJet] 2 1 0
    (by norm_num) (by norm_num) (by simp)

end JetCodec
